import Mathlib

/-!
Verification development for the Compaqt compression engine.

The Python sources are shallowly embedded over `List Char` (Python strings
are sequences of code points; `len`, slicing and indexing below are the
character-level operations the source uses).  Rational numbers stand in for
Python's real arithmetic.  The external sentence-embedding provider is
abstracted as a choice function `pick` selecting the index of the
highest-similarity candidate, exactly the role `np.argmax` plays in
`minify_semantic.py`.
-/

namespace Compaqt

/-- Python's `str.isspace` / regex `\s` (Unicode whitespace).  The proofs in
this file do not depend on the exact extent of the class. -/
def pyIsSpace (c : Char) : Bool :=
  c == ' ' || c == '\t' || c == '\n' || c == '\r' || c == '\x0b' || c == '\x0c' ||
  c == '\x1c' || c == '\x1d' || c == '\x1e' || c == '\x1f' || c == '\x85' || c == '\xa0' ||
  c == ' ' || c == ' ' || c == ' ' || c == ' ' || c == ' ' ||
  c == ' ' || c == ' ' || c == ' ' || c == ' ' || c == ' ' ||
  c == ' ' || c == ' ' || c == ' ' || c == ' ' || c == ' ' ||
  c == ' ' || c == '　'

/-- Python `minify_c.is_ident_char`: `c.isalnum() or c == "_"`.  Python's `isalnum`
also accepts non-ASCII alphanumerics; the proofs do not depend on the exact
class, only on it being disjoint from the whitespace/operator characters
actually used. -/
def is_ident_char (c : Char) : Bool :=
  c.isAlphanum || c == '_'

/-- The scanner states of `minify_c.State`. -/
inductive MState where
  | normal
  | lineComment
  | blockComment
  | strState
  | charState
  | preproc
deriving DecidableEq

/-- Operator table `minify_c.OPERATORS`, already in the order produced by
`sorted(key=len, reverse=True)` (Python's sort is stable, so operators of
equal length keep their listed order). -/
def opList : List (List Char) :=
  [['>', '>', '='], ['<', '<', '='],
   ['+', '+'], ['-', '-'], ['-', '>'], ['=', '='], ['!', '='], ['<', '='], ['>', '='],
   ['&', '&'], ['|', '|'], ['+', '='], ['-', '='], ['*', '='], ['/', '='], ['%', '='],
   ['&', '='], ['|', '='], ['^', '='], ['<', '<'], ['>', '>'],
   ['+'], ['-'], ['*'], ['/'], ['%'], ['='], ['<'], ['>'], ['!'], ['~'],
   ['&'], ['|'], ['^'], ['?'], [':'], [','], [';'], ['('], [')'], ['['], [']'],
   ['\x7b'], ['\x7d']]

/-- The whitespace-run emission of `minify_c`: append a single space only
when the previously emitted character and the character following the
current whitespace character are both identifier characters (Python reads
`out[-1]` and `code[i+1]`, the latter being `""` past the end). -/
def wsOut (outRev : List Char) (nextc : Option Char) : List Char :=
  match outRev, nextc with
  | p :: o, some nc =>
    if is_ident_char p && is_ident_char nc then ' ' :: p :: o else p :: o
  | o, _ => o

/-- The greedy operator match of `minify_c`: first entry of `OPERATORS`
(descending length) that is a prefix of the remaining input. -/
def opFind (s : List Char) : Option (List Char) :=
  opList.find? (fun op => op.isPrefixOf s)

/-- Emission after the whitespace test failed: matched operator lexeme, or
the single character verbatim. -/
def opStep (c : Char) (rest : List Char) (outRev : List Char) :
    List Char × MState × Bool × List Char :=
  match opFind (c :: rest) with
  | some op => ((c :: rest).drop op.length, MState.normal, false, op.reverse ++ outRev)
  | none => (rest, MState.normal, false, c :: outRev)

/-- The NORMAL-state dispatch of the `minify_c` while-loop for the current
character `c` (lookahead `rest`): returns the remaining input, next state,
next `at_line_start`, and the new reversed output. -/
def normalStep (c : Char) (rest : List Char) (atLS : Bool) (outRev : List Char) :
    List Char × MState × Bool × List Char :=
  if atLS && c == '#' then (rest, MState.preproc, false, c :: outRev)
  else if c == '/' && rest.head? == some '/' then (rest.tail, MState.lineComment, atLS, outRev)
  else if c == '/' && rest.head? == some '*' then (rest.tail, MState.blockComment, atLS, outRev)
  else if c == '"' then (rest, MState.strState, atLS, c :: outRev)
  else if c == '\'' then (rest, MState.charState, atLS, c :: outRev)
  else if pyIsSpace c then
    (rest, MState.normal, (if c == '\n' then true else atLS), wsOut outRev rest.head?)
  else opStep c rest outRev

/-- LINE_COMMENT: discard until (and including) a newline. -/
def lineCommentStep (c : Char) (rest : List Char) (als : Bool) (outRev : List Char) :
    List Char × MState × Bool × List Char :=
  if c == '\n' then (rest, MState.normal, true, outRev)
  else (rest, MState.lineComment, als, outRev)

/-- BLOCK_COMMENT: discard until `*/`. -/
def blockCommentStep (c : Char) (rest : List Char) (als : Bool) (outRev : List Char) :
    List Char × MState × Bool × List Char :=
  if c == '*' && rest.head? == some '/' then (rest.tail, MState.normal, als, outRev)
  else (rest, MState.blockComment, als, outRev)

/-- STRING: copy verbatim, escapes as atomic pairs, closing on `"`. -/
def stringStep (c : Char) (rest : List Char) (als : Bool) (outRev : List Char) :
    List Char × MState × Bool × List Char :=
  match c == '\\', rest with
  | true, d :: rest2 => (rest2, MState.strState, als, d :: c :: outRev)
  | _, _ =>
    if c == '"' then (rest, MState.normal, als, c :: outRev)
    else (rest, MState.strState, als, c :: outRev)

/-- CHAR: copy verbatim, escapes as atomic pairs, closing on `'`. -/
def charStep (c : Char) (rest : List Char) (als : Bool) (outRev : List Char) :
    List Char × MState × Bool × List Char :=
  match c == '\\', rest with
  | true, d :: rest2 => (rest2, MState.charState, als, d :: c :: outRev)
  | _, _ =>
    if c == '\'' then (rest, MState.normal, als, c :: outRev)
    else (rest, MState.charState, als, c :: outRev)

/-- PREPROCESSOR: copy verbatim until (and including) a newline. -/
def preprocStep (c : Char) (rest : List Char) (als : Bool) (outRev : List Char) :
    List Char × MState × Bool × List Char :=
  if c == '\n' then (rest, MState.normal, true, '\n' :: outRev)
  else (rest, MState.preproc, als, c :: outRev)

/-- One iteration of the `minify_c` while-loop body, dispatching on the
scanner state. -/
def minifyStep (st : MState) (c : Char) (rest : List Char) (als : Bool) (outRev : List Char) :
    List Char × MState × Bool × List Char :=
  match st with
  | MState.normal => normalStep c rest als outRev
  | MState.lineComment => lineCommentStep c rest als outRev
  | MState.blockComment => blockCommentStep c rest als outRev
  | MState.strState => stringStep c rest als outRev
  | MState.charState => charStep c rest als outRev
  | MState.preproc => preprocStep c rest als outRev

/-- The `minify_c` while-loop, fuelled.  Every iteration of the Python loop
advances `i` by at least one, so fuel equal to the input length always
suffices (`minifyRun_spec`); `none` is returned only on fuel exhaustion. -/
def minifyRun : Nat → List Char → MState → Bool → List Char → Option (List Char)
  | 0, rem, _, _, outRev => if rem.isEmpty then some outRev else none
  | fuel + 1, rem, st, als, outRev =>
    match rem with
    | [] => some outRev
    | c :: rest =>
      match minifyStep st c rest als outRev with
      | (rem2, st2, als2, out2) => minifyRun fuel rem2 st2 als2 out2

/-- Embedding of `minify_c.minify_c`.  The fuel `code.length` is always
sufficient (`minifyRun_spec` below), so the `getD` default is never
taken. -/
def minify_c (code : List Char) : List Char :=
  ((minifyRun code.length code MState.normal true []).getD []).reverse

example : minify_c ['a', '/', ' ', '*', 'b'] = ['a', '/', '*', 'b'] := by decide

example : minify_c ['a', '/', '*', 'b'] = ['a'] := by decide

example : minify_c ['a', ' ', '/', '/', 'c', '\n', 'b'] = ['a', 'b'] := by decide

example :
    minify_c "int main()\x7b // hello\n  return   0 ; \x7d".data
      = "int main()\x7breturn 0;\x7d".data := by
  decide

/-! ## Sentence segmentation (`minify_semantic.split_sentences_with_delimiters`) -/

/-- Python `text.replace("\r\n", "\n")`: the `replace` scans left to right over
non-overlapping occurrences. -/
def normalizeCRLF : List Char → List Char
  | [] => []
  | '\r' :: '\n' :: rest => '\n' :: normalizeCRLF rest
  | c :: rest => c :: normalizeCRLF rest

/-- Does the delimiter alternation `[.!?]\s+|\n+|$` of the sentence pattern
match at the head of `s`?  Returns the (greedy) delimiter and the remaining
suffix.  `$` (which in the un-anchored pattern can fire only at the end of
the string: just before a final newline, `\n+` matches first) is the
`[] => some ([], [])` case. -/
def delimHere (s : List Char) : Option (List Char × List Char) :=
  match s with
  | [] => some ([], [])
  | c :: rest =>
    if c == '.' || c == '!' || c == '?' then
      match rest with
      | d :: _ =>
        if pyIsSpace d then some (c :: rest.takeWhile pyIsSpace, rest.dropWhile pyIsSpace)
        else none
      | [] => none
    else if c == '\n' then some (s.takeWhile (· == '\n'), s.dropWhile (· == '\n'))
    else none

/-- One match of the lazy pattern `(.*?)([.!?]\s+|\n+|$)` starting at the
current position: scan for the first position where the delimiter
alternation matches (the lazy group grows one character at a time), and
return `(group 1, group 2, suffix after the match)`.  `acc` holds the
reversed characters of group 1 collected so far. -/
def matchGo : List Char → List Char → List Char × List Char × List Char
  | acc, [] => (acc.reverse, [], [])
  | acc, c :: rest =>
    match delimHere (c :: rest) with
    | some (d, after) => (acc.reverse, d, after)
    | none => matchGo (c :: acc) rest

/-- All matches of `re.finditer(r'(.*?)([.!?]\s+|\n+|$)', text, re.DOTALL)`
as (sentence, delimiter) pairs, fuelled: every match on a non-empty
remainder consumes at least one character, so fuel `text.length` suffices
(`splitAllGo_concat`).  On the empty remainder `finditer` yields exactly one
final empty match. -/
def splitAllGo : Nat → List Char → List (List Char × List Char)
  | _, [] => [([], [])]
  | 0, _ :: _ => []
  | fuel + 1, c :: rest =>
    match matchGo [] (c :: rest) with
    | (g, d, after) => (g, d) :: splitAllGo fuel after

/-- All (sentence, delimiter) matches of the sentence pattern over the
CRLF-normalized text, before the non-empty-sentence filter. -/
def split_all_matches (text : List Char) : List (List Char × List Char) :=
  splitAllGo text.length text

/-- Embedding of `minify_semantic.split_sentences_with_delimiters`: CRLF-normalize, run
the pattern, and keep only pairs whose sentence part is non-empty
(`if sentence:`). -/
def split_sentences_with_delimiters (text : List Char) : List (List Char × List Char) :=
  (split_all_matches (normalizeCRLF text)).filter (fun p => !p.1.isEmpty)

/-- Concatenation of `text + delimiter` over a pair list (the
reconstruction the spec talks about). -/
def concatPairs (l : List (List Char × List Char)) : List Char :=
  l.foldr (fun p acc => p.1 ++ p.2 ++ acc) []

example :
    split_sentences_with_delimiters "Hi there. Go!\nBye".data
      = [("Hi there".data, ". ".data), ("Go".data, "!\n".data), ("Bye".data, [])] := by decide

example : concatPairs (split_sentences_with_delimiters ['\n', 'H', 'i']) = ['H', 'i'] := by decide

/-! ## Word spans and the semantic reducer (`minify_semantic.py`) -/

/-- Worker for `word_spans`: scans the sentence accumulating the current
maximal run of word characters (`\w`), emitting a `(word, start, end)`
triple when the run ends.  `cur = some (st, accRev)` means a run started at
index `st` with reversed characters `accRev`. -/
def spansGo : List Char → Nat → Option (Nat × List Char) → List (List Char × Nat × Nat)
  | [], _, none => []
  | [], i, some (st, accRev) => [(accRev.reverse, st, i)]
  | c :: rest, i, none =>
    if is_ident_char c then spansGo rest (i + 1) (some (i, [c]))
    else spansGo rest (i + 1) none
  | c :: rest, i, some (st, accRev) =>
    if is_ident_char c then spansGo rest (i + 1) (some (st, c :: accRev))
    else (accRev.reverse, st, i) :: spansGo rest (i + 1) none

/-- Embedding of `minify_semantic.word_spans`: the matches of `\b\w+\b` as
`(word, start, end)` triples, i.e. the maximal runs of word characters. -/
def word_spans (sentence : List Char) : List (List Char × Nat × Nat) :=
  spansGo sentence 0 none

example :
    word_spans "ab c,d".data = [("ab".data, 0, 2), ("c".data, 3, 4), ("d".data, 5, 6)] := by
  decide

/-- Embedding of `minify_semantic.remove_word_at_span`: delete `[start, end)`; first
widen the range by the single character after it when that is whitespace,
otherwise by the single character before it when that is whitespace.  The
`getD` defaults are irrelevant: they are read only when the adjacent bounds
check already failed. -/
def remove_word_at_span (s : List Char) (span : Nat × Nat) : List Char :=
  let a := span.1
  let b := span.2
  if b < s.length && pyIsSpace (s.getD b 'x') then s.take a ++ s.drop (b + 1)
  else if 0 < a && pyIsSpace (s.getD (a - 1) 'x') then s.take (a - 1) ++ s.drop b
  else s.take a ++ s.drop b

example : remove_word_at_span "ab c".data (0, 2) = "c".data := by decide

example : remove_word_at_span "ab c".data (3, 4) = "ab".data := by decide

/-- Embedding of `MinifySemantic.most_redundant_word`.  The external embedding model and
`np.argmax` are abstracted by `pick`, which receives the sentence and the
candidate variants and returns the index of the best-scoring variant
(`np.argmax` returns an index into the variant list, ties going to the
first; the out-of-range branch below is a benign totalization that never
fires for such a pick, since the candidate list is non-empty whenever the
span check passes).  `batchSize` only controls how the Python code batches
the encoding calls and has no semantic effect. -/
def most_redundant_word (pick : List Char → List (List Char) → Nat)
    (sentence : List Char) (batchSize minWords : Nat) :
    List Char × Option (List Char) :=
  let spans := word_spans sentence
  if spans.length < minWords then (sentence, none)
  else
    let meta := spans.filter
      (fun t => (remove_word_at_span sentence (t.2.1, t.2.2)).any (fun c => !pyIsSpace c))
    let variants := meta.map (fun t => remove_word_at_span sentence (t.2.1, t.2.2))
    let idx := pick sentence variants
    match meta.get? idx with
    | some (w, a, b) => (remove_word_at_span sentence (a, b), some w)
    | none => (sentence, none)

/-- The `while` loop of `MinifySemantic.compress_prompt` for one sentence,
fuelled (every iteration that removes a word strictly shrinks the sentence,
so fuel `sentence.length + 1` suffices, see `reduceLoop_fuel_irrelevant`).
Note the faithful argument slip: Python calls
`self.most_redundant_word(reduced_sentence, min_words)`, binding the
caller's `min_words` to the `batch_size` parameter, so the word threshold is
always the default `5`. -/
def reduceLoop (pick : List Char → List (List Char) → Nat) (origLen : Nat)
    ( ratio : ℚ) (minWords : Nat) : Nat → List Char → List Char
  | 0, reduced => reduced
  | fuel + 1, reduced =>
    if ((reduced.length : ℚ) / (origLen : ℚ) > ratio) then
      match most_redundant_word pick reduced minWords 5 with
      | (r', some _) => reduceLoop pick origLen ratio minWords fuel r'
      | (r', none) => r'
    else reduced

/-- Embedding of `MinifySemantic.compress_prompt`: reduce each segmented sentence with
the greedy loop, then concatenate `reduced + delimiter` in order. -/
def compress_prompt (pick : List Char → List (List Char) → Nat)
    (prompt : List Char) (minWords : Nat) ( ratio : ℚ) : List Char :=
  (split_sentences_with_delimiters prompt).foldl
    (fun acc p => acc ++ reduceLoop pick p.1.length ratio minWords (p.1.length + 1) p.1 ++ p.2)
    []

/-- The chooser that models `np.argmax` under an embedding provider scoring
all candidates equally (`np.argmax` returns the first index on ties). -/
def pickFirst : List Char → List (List Char) → Nat :=
  fun _ _ => 0

example :
    most_redundant_word pickFirst "one two three four five".data 32 5
      = ("two three four five".data, some "one".data) := by decide

/-! ## Token boundary mapper

Modelled from the spec: the `Tokenizer` class that `app.py` imports
(`from compaqt.tokenizer import Tokenizer`, methods `num_tokens` and
`token_starts`) is not present under the repository's sources — the module
`compaqt/tokenizer.py` only contains the legacy helpers `count_tokens` and
`get_tokenizer_info`.  The definitions below follow spec §4.2/§6: an
external capability provides `encode` and `decode_single`; `token_starts`
encodes once, the first offset is 0, and each subsequent offset is the
previous start plus the byte length of the previous token's decoded form.
Bytes are modelled as characters. -/

/-- Modelled from the spec: the external tokenizer capability of §6
(`encode(text) -> ordered sequence of token ids`,
`decode_single(id) -> bytes`). -/
structure Tokenizer where
  encode : List Char → List Nat
  decode_single : Nat → List Char

/-- Modelled from the spec: `num_tokens(text)`, equivalent to
`len(encode(text))`. -/
def num_tokens (t : Tokenizer) (text : List Char) : Nat :=
  (t.encode text).length

/-- Cumulative-offset worker for `token_starts`: the head token starts at
`off`, each following token at the previous start plus the byte length of
the previous token's decoded form. -/
def startsGo (t : Tokenizer) (off : Nat) : List Nat → List Nat
  | [] => []
  | tk :: rest => off :: startsGo t (off + (t.decode_single tk).length) rest

/-- Modelled from the spec: `token_starts(text)` — encode once, first offset
0, then cumulative decoded byte lengths. -/
def token_starts (t : Tokenizer) (text : List Char) : List Nat :=
  startsGo t 0 (t.encode text)

/-- Concatenation of `decode_single` over a token sequence; the §6 contract
demands this reconstructs the original bytes. -/
def decode_all (t : Tokenizer) (toks : List Nat) : List Char :=
  toks.foldr (fun tk acc => t.decode_single tk ++ acc) []

/-! ## Compression report builder (`app.py`) -/

/-- Round half to even (what Python's `round` does on the exact value;
the binary-float rounding of the CPython runtime is idealized away by
working over `ℚ`). -/
def roundHalfEven (q : ℚ) : ℤ :=
  let f := ⌊q⌋
  if q - f < 1 / 2 then f
  else if 1 / 2 < q - f then f + 1
  else if Even f then f else f + 1

/-- Python round `round(x, 1)` over `ℚ`. -/
def pyRound1 (q : ℚ) : ℚ :=
  (roundHalfEven (q * 10) : ℚ) / 10

/-- Percentage formula `savings_percentage` as computed by every compression route of
`app.py`: `round((1 - compressed / original) * 100, 1) if original > 0 else 0`. -/
def savings_percentage_of (origTokens compTokens : Nat) : ℚ :=
  if 0 < origTokens then pyRound1 ((1 - (compTokens : ℚ) / (origTokens : ℚ)) * 100) else 0

/-- The numeric fields of the JSON payload the compression routes return. -/
structure CompressResponse where
  minimized : List Char
  original_tokens : Nat
  compressed_tokens : Nat
  original_token_starts : List Nat
  compressed_token_starts : List Nat
  savings : ℤ
  savings_percentage : ℚ

/-- Embedding of `app.py::compress_c`: tokenize, minify with `minify_c`, tokenize again,
and report `savings = original - compressed` with the guarded percentage. -/
def compress_c_route (t : Tokenizer) (code : List Char) : CompressResponse :=
  let original_tokens := num_tokens t code
  let minimized := minify_c code
  let compressed_tokens := num_tokens t minimized
  { minimized := minimized
    original_tokens := original_tokens
    compressed_tokens := compressed_tokens
    original_token_starts := token_starts t code
    compressed_token_starts := token_starts t minimized
    savings := (original_tokens : ℤ) - (compressed_tokens : ℤ)
    savings_percentage := savings_percentage_of original_tokens compressed_tokens }

/-- Embedding of `app.py::compress_prompt`: same report shape over the semantic
reducer. -/
def compress_prompt_route (t : Tokenizer) (pick : List Char → List (List Char) → Nat)
    (prompt : List Char) (minWords : Nat) ( ratio : ℚ) : CompressResponse :=
  let original_tokens := num_tokens t prompt
  let minimized := compress_prompt pick prompt minWords ratio
  let compressed_tokens := num_tokens t minimized
  { minimized := minimized
    original_tokens := original_tokens
    compressed_tokens := compressed_tokens
    original_token_starts := token_starts t prompt
    compressed_token_starts := token_starts t minimized
    savings := (original_tokens : ℤ) - (compressed_tokens : ℤ)
    savings_percentage := savings_percentage_of original_tokens compressed_tokens }

/-! ## Scanner lemmas -/

theorem opList_length_pos : ∀ op ∈ opList, 1 ≤ op.length := by decide

/-- The function `wsOut` never emits more than one character. -/
theorem wsOut_length (outRev : List Char) (nextc : Option Char) :
    (wsOut outRev nextc).length ≤ outRev.length + 1 := by
  unfold wsOut
  rcases outRev with _ | ⟨p, o⟩ <;> rcases nextc with _ | nc <;> simp
  split <;> simp

/-- The function `opStep` consumes at least one character, and emits exactly as many
characters as it consumes. -/
theorem opStep_spec (c : Char) (rest outRev : List Char) :
    (opStep c rest outRev).1.length ≤ rest.length ∧
      (opStep c rest outRev).2.2.2.length + (opStep c rest outRev).1.length ≤
        outRev.length + rest.length + 1 := by
  unfold opStep
  cases hop : opFind (c :: rest) with
  | none =>
    constructor <;> simp <;> omega
  | some op =>
    have hop2 : opList.find? (fun op => op.isPrefixOf (c :: rest)) = some op := hop
    have hmem : op ∈ opList := List.mem_of_find?_eq_some hop2
    have h1 : 1 ≤ op.length := opList_length_pos op hmem
    have hple : op.length ≤ (c :: rest).length := by
      have hpred := List.find?_some hop2
      have hpre : op <+: (c :: rest) := List.isPrefixOf_iff_prefix.mp (by simpa using hpred)
      exact hpre.length_le
    simp only [List.length_drop, List.length_append, List.length_reverse, List.length_cons] at *
    omega

/-- Each loop iteration consumes at least one character: the remaining input
shrinks from `c :: rest` to at most `rest`; and it emits at most as many
characters as it consumes. -/
theorem minifyStep_spec (st : MState) (c : Char) (rest : List Char) (als : Bool)
    (outRev : List Char) :
    (minifyStep st c rest als outRev).1.length ≤ rest.length ∧
      (minifyStep st c rest als outRev).2.2.2.length + (minifyStep st c rest als outRev).1.length ≤
        outRev.length + rest.length + 1 := by
  cases st
  case normal =>
    simp only [minifyStep, normalStep]
    split
    · simp only [List.length_cons]
      omega
    · split
      · have := List.length_tail rest
        constructor <;> simp <;> omega
      · split
        · have := List.length_tail rest
          constructor <;> simp <;> omega
        · split
          · simp only [List.length_cons]
            omega
          · split
            · simp only [List.length_cons]
              omega
            · split
              · have := wsOut_length outRev rest.head?
                constructor
                · simp
                · simp only [Prod.fst, Prod.snd]
                  omega
              · exact opStep_spec c rest outRev
  case lineComment =>
    simp only [minifyStep, lineCommentStep]
    split <;> (constructor <;> simp)
  case blockComment =>
    simp only [minifyStep, blockCommentStep]
    split
    · have := List.length_tail rest
      constructor <;> simp <;> omega
    · constructor <;> simp
  case strState =>
    simp only [minifyStep, stringStep]
    split
    · constructor <;> simp <;> omega
    · split <;> (constructor <;> simp) <;> omega
  case charState =>
    simp only [minifyStep, charStep]
    split
    · constructor <;> simp <;> omega
    · split <;> (constructor <;> simp) <;> omega
  case preproc =>
    simp only [minifyStep, preprocStep]
    split <;> (constructor <;> simp) <;> omega

/-- Scanner totality and output bound: with fuel at least the remaining
input length the loop always returns a result, and the result is no longer
than the remaining input plus what was already emitted. -/
theorem minifyRun_spec (fuel : Nat) :
    ∀ rem st als outRev, rem.length ≤ fuel →
      ∃ out, minifyRun fuel rem st als outRev = some out ∧
        out.length ≤ rem.length + outRev.length := by
  induction fuel with
  | zero =>
    intro rem st als outRev h
    have hrem : rem = [] := List.length_eq_zero.mp (Nat.le_zero.mp h)
    subst hrem
    exact ⟨outRev, rfl, by simp⟩
  | succ n ih =>
    intro rem st als outRev h
    match rem with
    | [] => exact ⟨outRev, rfl, by simp⟩
    | c :: rest =>
      obtain ⟨hs1, hs2⟩ := minifyStep_spec st c rest als outRev
      have hr : (minifyStep st c rest als outRev).1.length ≤ n := by
        simp only [List.length_cons] at h
        omega
      obtain ⟨out, ho, hb⟩ := ih (minifyStep st c rest als outRev).1
        (minifyStep st c rest als outRev).2.1 (minifyStep st c rest als outRev).2.2.1
        (minifyStep st c rest als outRev).2.2.2 hr
      refine ⟨out, ?_, ?_⟩
      · simp only [minifyRun]
        rw [← ho]
      · simp only [List.length_cons]
        omega

/-- A STRING-state character that is neither a quote nor a backslash is
copied verbatim and the state is unchanged. -/
theorem stringStep_other (c : Char) (rest : List Char) (als : Bool) (outRev : List Char)
    (h1 : (c == '"') = false) (h2 : (c == '\\') = false) :
    stringStep c rest als outRev = (rest, MState.strState, als, c :: outRev) := by
  simp only [stringStep, h2, h1]
  split
  · simp_all
  · rfl

/-- Unterminated strings run to end-of-input and flush what was collected
verbatim. -/
theorem minifyRun_string_flush (fuel : Nat) :
    ∀ rem als outRev, rem.length ≤ fuel → (∀ c ∈ rem, c ≠ '"' ∧ c ≠ '\\') →
      minifyRun fuel rem MState.strState als outRev = some (rem.reverse ++ outRev) := by
  induction fuel with
  | zero =>
    intro rem als outRev h _
    have hrem : rem = [] := List.length_eq_zero.mp (Nat.le_zero.mp h)
    subst hrem
    simp [minifyRun]
  | succ n ih =>
    intro rem als outRev h hnc
    match rem with
    | [] => simp [minifyRun]
    | c :: rest =>
      have hr : rest.length ≤ n := by
        simp only [List.length_cons] at h
        omega
      have hc := hnc c (List.mem_cons_self c rest)
      have hq : (c == '"') = false := by
        simpa using hc.1
      have hbs : (c == '\\') = false := by
        simpa using hc.2
      simp only [minifyRun, minifyStep, stringStep_other c rest als outRev hq hbs]
      rw [ih rest als (c :: outRev) hr (fun d hd => hnc d (List.mem_cons_of_mem c hd))]
      simp

/-- C7: `minify_c` is total and never raises: the scanner terminates on
every input (fuel equal to the input length always yields a result, of
which `minify_c` is the reversal), and an unterminated string runs to
end-of-input flushing everything collected verbatim. -/
theorem C7_minify_total_and_flushing :
    (∀ code : List Char, ∃ outRev,
        minifyRun code.length code MState.normal true [] = some outRev ∧
          minify_c code = outRev.reverse) ∧
      (∀ fuel rem als outRev, rem.length ≤ fuel →
        (∀ c ∈ rem, c ≠ '"' ∧ c ≠ '\\') →
          minifyRun fuel rem MState.strState als outRev = some (rem.reverse ++ outRev)) := by
  constructor
  · intro code
    obtain ⟨out, ho, _⟩ := minifyRun_spec code.length code MState.normal true [] le_rfl
    exact ⟨out, ho, by simp [minify_c, ho]⟩
  · intro fuel rem als outRev h hnc
    exact minifyRun_string_flush fuel rem als outRev h hnc

/-- Witness for C7 at concrete inputs. -/
theorem C7_minify_total_and_flushing_witness :
    minifyRun 2 ['a', 'b'] MState.strState false [] = some ['b', 'a'] := by
  have h := C7_minify_total_and_flushing.2 2 ['a', 'b'] false [] (by decide) (by decide)
  simpa using h

/-- C9: the minified output is never longer than the input — every emitted
fragment consumes at least as many characters as it emits. -/
theorem C9_minify_never_longer (code : List Char) :
    (minify_c code).length ≤ code.length := by
  obtain ⟨out, ho, hb⟩ := minifyRun_spec code.length code MState.normal true [] le_rfl
  simp only [minify_c, ho, Option.getD_some, List.length_reverse]
  simpa using hb

/-- C3 is a code bug: `minify_c` is not idempotent.  On `"a/ *b"` the
whitespace between `/` and `*` is dropped (neither neighbour is an
identifier character), manufacturing the comment opener `/*`; re-minifying
the output therefore strips `*b` as a block comment. -/
theorem C3_idempotence_failure :
    minify_c "a/ *b".data = "a/*b".data ∧
      minify_c (minify_c "a/ *b".data) = "a".data ∧
      minify_c (minify_c "a/ *b".data) ≠ minify_c "a/ *b".data := by
  exact ⟨by decide, by decide, by decide⟩

/-- C4 is a code bug: the whitespace-merge invariant fails across removed
comments.  Minifying `"a //c\nb"` yields `"ab"`: the adjacent identifier
characters `a` and `b` were separated by a line comment — not merely by
whitespace — in the input, yet no separating space is emitted (the space
before `//` sees the non-identifier `/` as its follower, and the comment
consumes the newline). -/
theorem C4_comment_merge_failure :
    minify_c "a //c\nb".data = "ab".data ∧
      is_ident_char 'a' ∧ is_ident_char 'b' ∧
      ¬ ∃ i j : Fin "a //c\nb".data.length, i < j ∧
          "a //c\nb".data.get i = 'a' ∧ "a //c\nb".data.get j = 'b' ∧
          ∀ k : Fin "a //c\nb".data.length, i < k → k < j →
            pyIsSpace ("a //c\nb".data.get k) := by
  exact ⟨by decide, by decide, by decide, by decide⟩

/-! ## Segmentation lemmas -/

theorem concatPairs_cons (g d : List Char) (l : List (List Char × List Char)) :
    concatPairs ((g, d) :: l) = g ++ d ++ concatPairs l := rfl

/-- A matched delimiter together with the remaining suffix reconstructs the
scanned text. -/
theorem delimHere_spec (s d a : List Char) (h : delimHere s = some (d, a)) :
    d ++ a = s := by
  unfold delimHere at h
  split at h
  · simp_all
  · split at h
    · split at h
      · split at h
        · rename_i rest r hr hsp
          simp only [Option.some.injEq, Prod.mk.injEq] at h
          obtain ⟨h1, h2⟩ := h
          subst h1
          subst h2
          simp [List.takeWhile_append_dropWhile]
        · exact absurd h (by simp)
      · exact absurd h (by simp)
    · split at h
      · simp only [Option.some.injEq, Prod.mk.injEq] at h
        obtain ⟨h1, h2⟩ := h
        subst h1
        subst h2
        simp [List.takeWhile_append_dropWhile]
      · exact absurd h (by simp)

/-- On a non-empty text a matched delimiter is non-empty. -/
theorem delimHere_ne_nil (c : Char) (rest d a : List Char)
    (h : delimHere (c :: rest) = some (d, a)) : d ≠ [] := by
  simp only [delimHere] at h
  split at h
  · split at h
    · split at h
      · simp only [Option.some.injEq, Prod.mk.injEq] at h
        obtain ⟨h1, _⟩ := h
        subst h1
        simp
      · exact absurd h (by simp)
    · exact absurd h (by simp)
  · split at h
    · rename_i hnl
      simp only [Option.some.injEq, Prod.mk.injEq] at h
      obtain ⟨h1, _⟩ := h
      subst h1
      simp [List.takeWhile_cons, hnl]
    · exact absurd h (by simp)

/-- The three parts of one regex match tile the scanned text. -/
theorem matchGo_concat (s : List Char) :
    ∀ acc, (matchGo acc s).1 ++ (matchGo acc s).2.1 ++ (matchGo acc s).2.2 =
      acc.reverse ++ s := by
  induction s with
  | nil =>
    intro acc
    simp [matchGo]
  | cons c rest ih =>
    intro acc
    simp only [matchGo]
    cases hd : delimHere (c :: rest) with
    | some p =>
      rcases p with ⟨d, a⟩
      have := delimHere_spec (c :: rest) d a hd
      simpa using this
    | none =>
      have := ih (c :: acc)
      simpa using this

/-- Every match on a non-empty remainder consumes at least one character. -/
theorem matchGo_progress (s : List Char) :
    ∀ acc, s ≠ [] →
      acc.length < (matchGo acc s).1.length + (matchGo acc s).2.1.length := by
  induction s with
  | nil =>
    intro acc h
    exact absurd rfl h
  | cons c rest ih =>
    intro acc _
    simp only [matchGo]
    cases hd : delimHere (c :: rest) with
    | some p =>
      rcases p with ⟨d, a⟩
      have hne : d ≠ [] := delimHere_ne_nil c rest d a hd
      have : 1 ≤ d.length := by
        cases d with
        | nil => exact absurd rfl hne
        | cons x xs => simp
      simp only [List.length_reverse]
      omega
    | none =>
      show acc.length < (matchGo (c :: acc) rest).1.length + (matchGo (c :: acc) rest).2.1.length
      cases rest with
      | nil =>
        show acc.length < (c :: acc).reverse.length + ([] : List Char).length
        simp
      | cons c2 rest2 =>
        have := ih (c :: acc) (by simp)
        simp only [List.length_cons] at this
        omega

/-- Fuel equal to the text length suffices for `splitAllGo`, and the
produced (sentence, delimiter) pairs tile the text exactly. -/
theorem splitAllGo_concat (fuel : Nat) :
    ∀ s, s.length ≤ fuel → concatPairs (splitAllGo fuel s) = s := by
  induction fuel with
  | zero =>
    intro s h
    have hs : s = [] := List.length_eq_zero.mp (Nat.le_zero.mp h)
    subst hs
    simp [splitAllGo, concatPairs]
  | succ n ih =>
    intro s h
    match s with
    | [] => simp [splitAllGo, concatPairs]
    | c :: rest =>
      rcases hm : matchGo [] (c :: rest) with ⟨g, d, after⟩
      have htile : g ++ d ++ after = c :: rest := by
        have := matchGo_concat (c :: rest) []
        rw [hm] at this
        simpa using this
      have hprog : 0 < g.length + d.length := by
        have := matchGo_progress (c :: rest) [] (by simp)
        rw [hm] at this
        simpa using this
      have hafter : after.length ≤ n := by
        have := congrArg List.length htile
        simp only [List.length_append, List.length_cons] at this h
        omega
      simp only [splitAllGo, hm, concatPairs_cons, ih after hafter]
      exact htile

/-- Dropping only pairs that are entirely empty does not change the
concatenation. -/
theorem concatPairs_filter (l : List (List Char × List Char))
    (h : ∀ p ∈ l, p.1 = [] → p.2 = []) :
    concatPairs (l.filter (fun p => !p.1.isEmpty)) = concatPairs l := by
  induction l with
  | nil => rfl
  | cons p rest ih =>
    rcases p with ⟨g, d⟩
    by_cases hg : g = []
    · subst hg
      have hd : d = [] := h ([], d) (List.mem_cons_self _ _) rfl
      subst hd
      simp only [List.filter_cons, List.isEmpty_nil, Bool.not_true, concatPairs_cons]
      simpa using ih (fun q hq h1 => h q (List.mem_cons_of_mem _ hq) h1)
    · have hne : (!g.isEmpty) = true := by
        simp [List.isEmpty_iff, hg]
      simp only [List.filter_cons, hne, if_pos, concatPairs_cons]
      rw [ih (fun q hq h1 => h q (List.mem_cons_of_mem _ hq) h1)]

/-- C2 (counterexample): segmentation does not reconstruct the input
byte-for-byte.  On `"\nHi"` the leading newline run is a delimiter attached
to an empty sentence; the pair is dropped by the `if sentence:` filter, and
concatenating the returned pairs yields `"Hi"`. -/
theorem C2_roundtrip_counterexample :
    concatPairs (split_sentences_with_delimiters ['\n', 'H', 'i']) = ['H', 'i'] ∧
      concatPairs (split_sentences_with_delimiters ['\n', 'H', 'i']) ≠ ['\n', 'H', 'i'] := by
  exact ⟨by decide, by decide⟩

/-- C2 (amended): concatenating all matches of the sentence pattern —
before the non-empty filter — reconstructs the CRLF-normalized text; hence
the pairs returned by `split_sentences_with_delimiters` reconstruct the
original text exactly whenever the text is CRLF-free and every delimiter is
preceded by a non-empty sentence (every dropped match is entirely empty). -/
theorem C2_roundtrip_amended (text : List Char) :
    concatPairs (split_all_matches (normalizeCRLF text)) = normalizeCRLF text ∧
      (normalizeCRLF text = text →
        (∀ p ∈ split_all_matches text, p.1 = [] → p.2 = []) →
        concatPairs (split_sentences_with_delimiters text) = text) := by
  constructor
  · exact splitAllGo_concat (normalizeCRLF text).length (normalizeCRLF text) le_rfl
  · intro hnorm hempty
    unfold split_sentences_with_delimiters
    rw [hnorm]
    rw [concatPairs_filter (split_all_matches text) hempty]
    exact splitAllGo_concat text.length text le_rfl

/-- Witness for C2 (amended) at a concrete two-sentence text. -/
theorem C2_roundtrip_amended_witness :
    concatPairs (split_sentences_with_delimiters "Hi there. Bye".data) = "Hi there. Bye".data :=
  (C2_roundtrip_amended "Hi there. Bye".data).2 (by decide) (by decide)

/-- C10: the segmenter only yields pairs with a non-empty sentence (so the
ratio test `len(reduced) / len(sentence)` always has a positive
denominator), and compressing the empty prompt yields the empty prompt. -/
theorem C10_no_div_by_zero :
    (∀ (text : List Char) p, p ∈ split_sentences_with_delimiters text → 0 < p.1.length) ∧
      (∀ pick minWords ( ratio : ℚ), compress_prompt pick [] minWords ratio = []) := by
  constructor
  · intro text p hp
    have hmem := List.of_mem_filter hp
    have : p.1 ≠ [] := by
      simpa [List.isEmpty_iff] using hmem
    cases hq : p.1 with
    | nil => exact absurd hq this
    | cons x xs => simp [hq]
  · intro pick minWords ratio
    rfl

/-- Witness for C10 at a concrete text. -/
theorem C10_no_div_by_zero_witness :
    0 < ("Hi".data, ([] : List Char)).1.length ∧
      compress_prompt pickFirst [] 5 1 = [] :=
  ⟨C10_no_div_by_zero.1 "Hi".data ("Hi".data, []) (by decide),
    C10_no_div_by_zero.2 pickFirst 5 1⟩

/-! ## C8: exact behaviour of `remove_word_at_span` -/

theorem getD_after_span (P M Q1 : List Char) (q : Char) :
    (P ++ M ++ (q :: Q1)).getD (P.length + M.length) 'x' = q := by
  rw [List.getD_append_right (P ++ M) (q :: Q1) 'x' (P.length + M.length) (by simp)]
  simp

theorem getD_before_span (L M Q : List Char) (pl : Char) :
    ((L ++ [pl]) ++ M ++ Q).getD ((L ++ [pl]).length - 1) 'x' = pl := by
  simp only [List.length_append, List.length_cons, List.length_nil, Nat.add_sub_cancel]
  rw [List.getD_append ((L ++ [pl]) ++ M) Q 'x' L.length (by simp)]
  rw [List.getD_append (L ++ [pl]) M 'x' L.length (by simp)]
  rw [List.getD_append_right L [pl] 'x' L.length le_rfl]
  simp

theorem take_prefix_span (P M Q : List Char) : (P ++ M ++ Q).take P.length = P := by
  rw [List.append_assoc]
  exact List.take_left P (M ++ Q)

theorem take_before_span (L M Q : List Char) (pl : Char) :
    ((L ++ [pl]) ++ M ++ Q).take ((L ++ [pl]).length - 1) = L := by
  simp only [List.length_append, List.length_cons, List.length_nil, Nat.add_sub_cancel]
  rw [List.append_assoc, List.append_assoc]
  exact List.take_left L ([pl] ++ (M ++ Q))

theorem drop_after_span (P M Q : List Char) :
    (P ++ M ++ Q).drop (P.length + M.length) = Q :=
  List.drop_left' (by simp)

theorem drop_past_span (P M Q1 : List Char) (q : Char) :
    (P ++ M ++ (q :: Q1)).drop (P.length + M.length + 1) = Q1 := by
  have heq : P ++ M ++ (q :: Q1) = ((P ++ M) ++ [q]) ++ Q1 := by simp
  rw [heq]
  have hlen : ((P ++ M) ++ [q]).length = P.length + M.length + 1 := by
    simp only [List.length_append, List.length_cons, List.length_nil]
  exact List.drop_left' hlen

/-- C8: for a span sitting between a prefix `P` and a suffix `Q`
(`span = (P.length, P.length + M.length)` inside `P ++ M ++ Q`),
`remove_word_at_span` deletes exactly the span `M` plus at most one
adjacent whitespace character, trailing-space-first: if the character just
after the span (the head of `Q`) is whitespace it is deleted; otherwise, if
the character just before the span (the last of `P`) is whitespace, that
one is deleted instead; otherwise only the span itself is removed. -/
theorem C8_remove_word_at_span_exact (P M Q : List Char) :
    remove_word_at_span (P ++ M ++ Q) (P.length, P.length + M.length) =
      if Q.head?.elim false pyIsSpace then P ++ Q.tail
      else if P.getLast?.elim false pyIsSpace then P.dropLast ++ Q
      else P ++ Q := by
  simp only [remove_word_at_span]
  rcases Q with _ | ⟨q, Q1⟩
  · -- nothing follows the span
    have hb : ¬ (P.length + M.length < (P ++ M ++ ([] : List Char)).length) := by
      simp
    simp only [List.head?_nil, Option.elim_none, Bool.false_eq_true, if_false,
      decide_eq_false hb, Bool.false_and]
    rcases List.eq_nil_or_concat P with hP | ⟨L, pl, hP⟩
    · subst hP
      simp
    · rw [List.concat_eq_append] at hP
      subst hP
      have hpos : 0 < (L ++ [pl]).length := by simp
      simp only [List.getLast?_concat, Option.elim_some, decide_eq_true hpos, Bool.true_and]
      rw [getD_before_span L M [] pl]
      by_cases hsp : pyIsSpace pl
      · simp only [hsp, if_true]
        rw [take_before_span L M [] pl, drop_after_span (L ++ [pl]) M [], List.dropLast_concat]
      · simp only [hsp, Bool.false_eq_true, if_false]
        rw [take_prefix_span (L ++ [pl]) M [], drop_after_span (L ++ [pl]) M []]
  · -- a character `q` follows the span
    have hb : P.length + M.length < (P ++ M ++ (q :: Q1)).length := by
      simp
    simp only [List.head?_cons, Option.elim_some, decide_eq_true hb, Bool.true_and]
    rw [getD_after_span P M Q1 q]
    by_cases hsp : pyIsSpace q
    · simp only [hsp, if_true]
      rw [take_prefix_span P M (q :: Q1), drop_past_span P M Q1 q]
      simp
    · simp only [hsp, Bool.false_eq_true, if_false]
      rcases List.eq_nil_or_concat P with hP | ⟨L, pl, hP⟩
      · subst hP
        simp
      · rw [List.concat_eq_append] at hP
        subst hP
        have hpos : 0 < (L ++ [pl]).length := by simp
        simp only [List.getLast?_concat, Option.elim_some, decide_eq_true hpos, Bool.true_and]
        rw [getD_before_span L M (q :: Q1) pl]
        by_cases hsp2 : pyIsSpace pl
        · simp only [hsp2, if_true]
          rw [take_before_span L M (q :: Q1) pl, drop_after_span (L ++ [pl]) M (q :: Q1),
            List.dropLast_concat]
        · simp only [hsp2, Bool.false_eq_true, if_false]
          rw [take_prefix_span (L ++ [pl]) M (q :: Q1), drop_after_span (L ++ [pl]) M (q :: Q1)]

/-! ## C5: token boundary mapper -/

/-- Total decoded byte length of a token sequence. -/
def sumLens (t : Tokenizer) (toks : List Nat) : Nat :=
  (toks.map (fun tk => (t.decode_single tk).length)).sum

theorem decode_all_length (t : Tokenizer) (toks : List Nat) :
    (decode_all t toks).length = sumLens t toks := by
  induction toks with
  | nil => rfl
  | cons tk rest ih =>
    simp only [decode_all, List.foldr_cons, List.length_append] at ih ⊢
    simp [sumLens, List.map_cons, List.sum_cons] at ih ⊢
    omega

theorem startsGo_length (t : Tokenizer) (toks : List Nat) :
    ∀ off, (startsGo t off toks).length = toks.length := by
  induction toks with
  | nil => intro off; rfl
  | cons tk rest ih => intro off; simp [startsGo, ih]

theorem startsGo_chain (t : Tokenizer) (toks : List Nat) :
    ∀ off, List.Chain' (· ≤ ·) (startsGo t off toks) := by
  induction toks with
  | nil => intro off; simp [startsGo]
  | cons tk rest ih =>
    intro off
    rw [startsGo, List.chain'_cons']
    refine ⟨?_, ih _⟩
    intro b hb
    cases rest with
    | nil => simp [startsGo] at hb
    | cons tk2 rest2 =>
      simp only [startsGo, List.head?_cons, Option.mem_def, Option.some.injEq] at hb
      omega

theorem startsGo_head (t : Tokenizer) (toks : List Nat) (off : Nat) (h : toks ≠ []) :
    (startsGo t off toks).head? = some off := by
  cases toks with
  | nil => exact absurd rfl h
  | cons tk rest => rfl

theorem startsGo_getD_zero (t : Tokenizer) (toks : List Nat) (off : Nat) (h : toks ≠ []) :
    (startsGo t off toks).getD 0 0 = off := by
  cases toks with
  | nil => exact absurd rfl h
  | cons tk rest => rfl

theorem startsGo_succ (t : Tokenizer) (toks : List Nat) :
    ∀ off i, i + 1 < toks.length →
      (startsGo t off toks).getD (i + 1) 0 =
        (startsGo t off toks).getD i 0 + (t.decode_single (toks.getD i 0)).length := by
  induction toks with
  | nil =>
    intro off i h
    simp at h
  | cons tk rest ih =>
    intro off i h
    cases i with
    | zero =>
      have hrest : rest ≠ [] := by
        simp only [List.length_cons] at h
        exact List.ne_nil_of_length_pos (by omega)
      simp only [startsGo, List.getD_cons_succ, List.getD_cons_zero]
      exact startsGo_getD_zero t rest _ hrest
    | succ j =>
      simp only [startsGo, List.getD_cons_succ]
      exact ih _ j (by simpa using h)

theorem getLastD_irrel (l : List Nat) (h : l ≠ []) (d1 d2 : Nat) :
    l.getLastD d1 = l.getLastD d2 := by
  cases l with
  | nil => exact absurd rfl h
  | cons a rest =>
    rw [List.getLastD_cons, List.getLastD_cons]

theorem startsGo_last (t : Tokenizer) (toks : List Nat) :
    ∀ off, toks ≠ [] →
      (startsGo t off toks).getLastD 0 + (t.decode_single (toks.getLastD 0)).length =
        off + sumLens t toks := by
  induction toks with
  | nil =>
    intro off h
    exact absurd rfl h
  | cons tk rest ih =>
    intro off _
    cases rest with
    | nil => simp [startsGo, sumLens]
    | cons tk2 rest2 =>
      have hne : startsGo t (off + (t.decode_single tk).length) (tk2 :: rest2) ≠ [] := by
        simp [startsGo]
      rw [startsGo, List.getLastD_cons, List.getLastD_cons, List.getLastD_cons]
      rw [getLastD_irrel _ hne off 0]
      have := ih (off + (t.decode_single tk).length) (by simp)
      rw [List.getLastD_cons] at this
      rw [this]
      simp [sumLens]
      omega

/-- C5 (spec-modelled): `token_starts` has the same length as the token
count, is non-decreasing, starts at offset 0, each subsequent offset is the
previous one plus the byte length of the previous token's decoded form, and
— given the §6 contract that decoding the encoded tokens reconstructs the
text — the last offset plus the last token's decoded length is the total
byte length of the text. -/
theorem C5_token_starts_spec (t : Tokenizer) (text : List Char)
    (hrt : decode_all t (t.encode text) = text) :
    (token_starts t text).length = num_tokens t text ∧
      List.Chain' (· ≤ ·) (token_starts t text) ∧
      (t.encode text ≠ [] → (token_starts t text).head? = some 0) ∧
      (∀ i, i + 1 < (token_starts t text).length →
        (token_starts t text).getD (i + 1) 0 =
          (token_starts t text).getD i 0 +
            (t.decode_single ((t.encode text).getD i 0)).length) ∧
      (t.encode text ≠ [] →
        (token_starts t text).getLastD 0 +
            (t.decode_single ((t.encode text).getLastD 0)).length = text.length) := by
  refine ⟨?_, ?_, ?_, ?_, ?_⟩
  · exact startsGo_length t (t.encode text) 0
  · exact startsGo_chain t (t.encode text) 0
  · intro h
    exact startsGo_head t (t.encode text) 0 h
  · intro i hi
    simp only [token_starts] at hi ⊢
    rw [startsGo_length t (t.encode text) 0] at hi
    exact startsGo_succ t (t.encode text) 0 i hi
  · intro h
    have hlast := startsGo_last t (t.encode text) 0 h
    have hlen : (decode_all t (t.encode text)).length = text.length := by rw [hrt]
    rw [decode_all_length] at hlen
    rw [token_starts, hlast, Nat.zero_add, hlen]

/-- A two-token test instance of the tokenizer capability. -/
def c5tok : Tokenizer where
  encode := fun s => if s.isEmpty then [] else [0, 1]
  decode_single := fun id => if id = 0 then ['a'] else ['b']

/-- Witness for C5 at a concrete tokenizer and text. -/
theorem C5_token_starts_spec_witness :
    (token_starts c5tok "ab".data).length = num_tokens c5tok "ab".data ∧
      List.Chain' (· ≤ ·) (token_starts c5tok "ab".data) ∧
      (c5tok.encode "ab".data ≠ [] → (token_starts c5tok "ab".data).head? = some 0) ∧
      (∀ i, i + 1 < (token_starts c5tok "ab".data).length →
        (token_starts c5tok "ab".data).getD (i + 1) 0 =
          (token_starts c5tok "ab".data).getD i 0 +
            (c5tok.decode_single ((c5tok.encode "ab".data).getD i 0)).length) ∧
      (c5tok.encode "ab".data ≠ [] →
        (token_starts c5tok "ab".data).getLastD 0 +
            (c5tok.decode_single ((c5tok.encode "ab".data).getLastD 0)).length =
          "ab".data.length) :=
  C5_token_starts_spec c5tok "ab".data (by decide)

/-! ## C6: savings formulas -/

/-- C6: every compression route reports `savings` as the difference of the
token counts, and `savings_percentage` as `round((1 - c/o) * 100, 1)` when
the original count is positive and `0` when it is zero — the degenerate
case is zero savings, not an error. -/
theorem C6_savings_formula (t : Tokenizer) (pick : List Char → List (List Char) → Nat)
    (code prompt : List Char) (minWords : Nat) ( ratio : ℚ) :
    ((compress_c_route t code).savings =
        (num_tokens t code : ℤ) - (num_tokens t (minify_c code) : ℤ)) ∧
      ((compress_prompt_route t pick prompt minWords ratio).savings =
        (num_tokens t prompt : ℤ) -
          (num_tokens t (compress_prompt pick prompt minWords ratio) : ℤ)) ∧
      (num_tokens t code = 0 → (compress_c_route t code).savings_percentage = 0) ∧
      (0 < num_tokens t code →
        (compress_c_route t code).savings_percentage =
          pyRound1 ((1 - (num_tokens t (minify_c code) : ℚ) / (num_tokens t code : ℚ)) * 100)) ∧
      (num_tokens t prompt = 0 →
        (compress_prompt_route t pick prompt minWords ratio).savings_percentage = 0) ∧
      (0 < num_tokens t prompt →
        (compress_prompt_route t pick prompt minWords ratio).savings_percentage =
          pyRound1 ((1 -
            (num_tokens t (compress_prompt pick prompt minWords ratio) : ℚ) /
              (num_tokens t prompt : ℚ)) * 100)) := by
  refine ⟨rfl, rfl, ?_, ?_, ?_, ?_⟩
  · intro h
    simp [compress_c_route, savings_percentage_of, h]
  · intro h
    simp [compress_c_route, savings_percentage_of, h]
  · intro h
    simp [compress_prompt_route, savings_percentage_of, h]
  · intro h
    simp [compress_prompt_route, savings_percentage_of, h]

/-- The degenerate tokenizer: every text encodes to no tokens. -/
def c6tok : Tokenizer where
  encode := fun _ => []
  decode_single := fun _ => []

/-- Witness for C6: a request whose original token count is zero reports
zero percentage (and zero savings), not an error. -/
theorem C6_savings_formula_witness :
    (compress_c_route c6tok []).savings_percentage = 0 :=
  (C6_savings_formula c6tok pickFirst [] [] 5 1).2.2.1 rfl

/-! ## C1: the min_words reduction bound -/

/-- One iteration of the reduction loop that removes a word. -/
theorem reduceLoop_step_some (pick : List Char → List (List Char) → Nat) (origLen : Nat)
    ( ratio : ℚ) (minWords fuel : Nat) (reduced r' w : List Char)
    (hfuel : fuel ≠ 0)
    (hc : (reduced.length : ℚ) / (origLen : ℚ) > ratio)
    (hm : most_redundant_word pick reduced minWords 5 = (r', some w)) :
    reduceLoop pick origLen ratio minWords fuel reduced =
      reduceLoop pick origLen ratio minWords (fuel - 1) r' := by
  cases fuel with
  | zero => exact absurd rfl hfuel
  | succ n =>
    simp only [reduceLoop]
    rw [if_pos hc, hm]
    rfl

/-- One iteration of the reduction loop in which no word is removable. -/
theorem reduceLoop_step_none (pick : List Char → List (List Char) → Nat) (origLen : Nat)
    ( ratio : ℚ) (minWords fuel : Nat) (reduced r' : List Char)
    (hfuel : fuel ≠ 0)
    (hc : (reduced.length : ℚ) / (origLen : ℚ) > ratio)
    (hm : most_redundant_word pick reduced minWords 5 = (r', none)) :
    reduceLoop pick origLen ratio minWords fuel reduced = r' := by
  cases fuel with
  | zero => exact absurd rfl hfuel
  | succ n =>
    simp only [reduceLoop]
    rw [if_pos hc, hm]

/-- The reduction loop stops once the ratio target is met. -/
theorem reduceLoop_stop (pick : List Char → List (List Char) → Nat) (origLen : Nat)
    ( ratio : ℚ) (minWords fuel : Nat) (reduced : List Char)
    (hfuel : fuel ≠ 0)
    (hc : ¬ ((reduced.length : ℚ) / (origLen : ℚ) > ratio)) :
    reduceLoop pick origLen ratio minWords fuel reduced = reduced := by
  cases fuel with
  | zero => exact absurd rfl hfuel
  | succ n =>
    simp only [reduceLoop]
    rw [if_neg hc]

/-- C1 is a code bug: `compress_prompt` passes the caller's `min_words`
positionally into the `batch_size` parameter of `most_redundant_word`
(`self.most_redundant_word(reduced_sentence, min_words)`), so the word
threshold is always the default `5`; moreover a sentence with exactly the
threshold's word count is still reduced (the stop test is
`len(spans) < min_words`).  At `min_words = 7`, `ratio = 1/10`, the six-word
sentence — which the claim requires to be returned unchanged since
`6 < 7` — is reduced to four words.  The chooser `pickFirst` instantiates
`np.argmax` for any embedding provider scoring all candidates equally
(argmax ties resolve to the first index); the word counts `6 → 5 → 4` are
the same for every chooser, since each iteration removes exactly one word
span. -/
theorem C1_min_words_bound_failure :
    compress_prompt pickFirst "one two three four five six".data 7 (1 / 10)
        = "three four five six".data ∧
      (word_spans "one two three four five six".data).length = 6 ∧
      (word_spans "three four five six".data).length = 4 ∧ 4 < 7 := by
  refine ⟨?_, by decide, by decide, by decide⟩
  have hsplit : split_sentences_with_delimiters "one two three four five six".data
      = [("one two three four five six".data, [])] := by decide
  have hlen0 : ("one two three four five six".data).length = 27 := by decide
  have hlen1 : ("two three four five six".data).length = 23 := by decide
  have hlen2 : ("three four five six".data).length = 19 := by decide
  have hm1 : most_redundant_word pickFirst "one two three four five six".data 7 5
      = ("two three four five six".data, some "one".data) := by decide
  have hm2 : most_redundant_word pickFirst "two three four five six".data 7 5
      = ("three four five six".data, some "two".data) := by decide
  have hm3 : most_redundant_word pickFirst "three four five six".data 7 5
      = ("three four five six".data, none) := by decide
  have hf1 : ("one two three four five six".data).length + 1 ≠ 0 := by simp
  have hc1 : (("one two three four five six".data).length : ℚ) /
      (("one two three four five six".data).length : ℚ) > (1 / 10 : ℚ) := by
    rw [hlen0]
    norm_num
  have hf2 : ("one two three four five six".data).length + 1 - 1 ≠ 0 := by
    rw [hlen0]
    decide
  have hc2 : (("two three four five six".data).length : ℚ) /
      (("one two three four five six".data).length : ℚ) > (1 / 10 : ℚ) := by
    rw [hlen0, hlen1]
    norm_num
  have hf3 : ("one two three four five six".data).length + 1 - 1 - 1 ≠ 0 := by
    rw [hlen0]
    decide
  have hc3 : (("three four five six".data).length : ℚ) /
      (("one two three four five six".data).length : ℚ) > (1 / 10 : ℚ) := by
    rw [hlen0, hlen2]
    norm_num
  simp only [compress_prompt, hsplit, List.foldl_cons, List.foldl_nil, List.nil_append,
    List.append_nil]
  rw [reduceLoop_step_some pickFirst _ _ 7 _ _ _ _ hf1 hc1 hm1]
  rw [reduceLoop_step_some pickFirst _ _ 7 _ _ _ _ hf2 hc2 hm2]
  rw [reduceLoop_step_none pickFirst _ _ 7 _ _ _ hf3 hc3 hm3]

end Compaqt
